import Mathlib

/-!
# Verification of the hybrid tool-call resolver
# (`demo_whatsapp_voice_stream.py`, `generate_hybrid` and its helpers)

This file gives a shallow embedding of the hybrid on-device / cloud
function-call resolution core and proves the specified properties about it.

Modelling conventions:

* Python runtime values appearing in tool-call arguments are embedded as the
  inductive `Value` (ints, floats, bools, strings, lists, `None`).  Python
  floats are modelled as rationals (`ℚ`); no claim depends on binary
  floating-point rounding.
* Python's builtin `int(...)`, `float(...)` and `json.loads(...)` can raise;
  they are embedded as `Except PyErr _` valued functions, and the `try/except`
  blocks of the source are embedded as explicit matches on the error case.
* The decimal rendering of floats by Python's `str` and the escaping rules of
  `repr` are abstracted by a fixed deterministic rendering; no claim depends
  on the concrete digits produced.
* The on-device inference collaborator `generate_cactus` and the remote
  collaborator `generate_cloud` are out of scope (spec §6); they are modelled
  as oracles.  Local inference is a stream `gc : ℕ → SampleRun` indexed by the
  position of the call in the request's (strictly sequential) call order,
  which captures arbitrary, even nondeterministic, collaborator behaviour.
  The remote collaborator is a function of the messages it receives, and the
  embedding additionally returns the log of message lists passed to it, so
  that "exactly one cloud call with the original messages" is statable.
-/

/-- Python exception kinds relevant to the embedded code. -/
inductive PyErr where
  | valueError
  | typeError
deriving DecidableEq, Repr

/-- A Python runtime value, as can appear in a tool-call argument. -/
inductive Value where
  | int (n : ℤ)
  | float (q : ℚ)
  | bool (b : Bool)
  | str (s : String)
  | list (xs : List Value)
  | none

mutual

/-- Decidable equality of embedded Python values. -/
def Value.decEq : (a b : Value) → Decidable (a = b)
  | .int a, .int b => if h : a = b then isTrue (by rw [h]) else isFalse (by simp [h])
  | .float a, .float b => if h : a = b then isTrue (by rw [h]) else isFalse (by simp [h])
  | .bool a, .bool b => if h : a = b then isTrue (by rw [h]) else isFalse (by simp [h])
  | .str a, .str b => if h : a = b then isTrue (by rw [h]) else isFalse (by simp [h])
  | .list xs, .list ys =>
    match Value.listDecEq xs ys with
    | isTrue h => isTrue (by rw [h])
    | isFalse h => isFalse (by simp [h])
  | .none, .none => isTrue rfl
  | .int _, .float _ => isFalse (fun h => nomatch h)
  | .int _, .bool _ => isFalse (fun h => nomatch h)
  | .int _, .str _ => isFalse (fun h => nomatch h)
  | .int _, .list _ => isFalse (fun h => nomatch h)
  | .int _, .none => isFalse (fun h => nomatch h)
  | .float _, .int _ => isFalse (fun h => nomatch h)
  | .float _, .bool _ => isFalse (fun h => nomatch h)
  | .float _, .str _ => isFalse (fun h => nomatch h)
  | .float _, .list _ => isFalse (fun h => nomatch h)
  | .float _, .none => isFalse (fun h => nomatch h)
  | .bool _, .int _ => isFalse (fun h => nomatch h)
  | .bool _, .float _ => isFalse (fun h => nomatch h)
  | .bool _, .str _ => isFalse (fun h => nomatch h)
  | .bool _, .list _ => isFalse (fun h => nomatch h)
  | .bool _, .none => isFalse (fun h => nomatch h)
  | .str _, .int _ => isFalse (fun h => nomatch h)
  | .str _, .float _ => isFalse (fun h => nomatch h)
  | .str _, .bool _ => isFalse (fun h => nomatch h)
  | .str _, .list _ => isFalse (fun h => nomatch h)
  | .str _, .none => isFalse (fun h => nomatch h)
  | .list _, .int _ => isFalse (fun h => nomatch h)
  | .list _, .float _ => isFalse (fun h => nomatch h)
  | .list _, .bool _ => isFalse (fun h => nomatch h)
  | .list _, .str _ => isFalse (fun h => nomatch h)
  | .list _, .none => isFalse (fun h => nomatch h)
  | .none, .int _ => isFalse (fun h => nomatch h)
  | .none, .float _ => isFalse (fun h => nomatch h)
  | .none, .bool _ => isFalse (fun h => nomatch h)
  | .none, .str _ => isFalse (fun h => nomatch h)
  | .none, .list _ => isFalse (fun h => nomatch h)

/-- Decidable equality of lists of embedded Python values. -/
def Value.listDecEq : (xs ys : List Value) → Decidable (xs = ys)
  | [], [] => isTrue rfl
  | [], _ :: _ => isFalse (fun h => nomatch h)
  | _ :: _, [] => isFalse (fun h => nomatch h)
  | x :: xs, y :: ys =>
    match Value.decEq x y with
    | isTrue h1 =>
      match Value.listDecEq xs ys with
      | isTrue h2 => isTrue (by rw [h1, h2])
      | isFalse h2 => isFalse (by simp [h2])
    | isFalse h1 => isFalse (by simp [h1])

end

instance : DecidableEq Value := Value.decEq

/-- Python truthiness: `bool(value)`. -/
def pyTruthy : Value → Bool
  | .int n => n ≠ 0
  | .float q => q ≠ 0
  | .bool b => b
  | .str s => s ≠ ""
  | .list xs => ¬ xs.isEmpty
  | .none => false

/-- Python whitespace (`\\s`, ASCII fragment). -/
def pyWsB (c : Char) : Bool :=
  c = ' ' ∨ c = '\t' ∨ c = '\n' ∨ c = '\r' ∨ c = Char.ofNat 11 ∨ c = Char.ofNat 12

/-- Python `str.strip()` (ASCII whitespace fragment; structural so that it
evaluates definitionally). -/
def pyStrip (s : String) : String :=
  String.mk (((s.data.dropWhile pyWsB).reverse.dropWhile pyWsB).reverse)

/-- Python `str.lower()` (ASCII; structural so that it evaluates
definitionally). -/
def pyLower (s : String) : String :=
  String.mk (s.data.map Char.toLower)

/-- Rendering of a float by `str`.  The decimal rendering of Python floats is
abstracted by this deterministic rendering; no claim depends on its digits. -/
def floatStr (q : ℚ) : String :=
  if q.den = 1 then toString q.num ++ ".0" else toString q.num ++ "/" ++ toString q.den

mutual

/-- Python `str(value)`.  String escaping inside `repr` of list elements is
abstracted; no claim depends on it. -/
def pyStr : Value → String
  | .int n => toString n
  | .float q => floatStr q
  | .bool b => if b then "True" else "False"
  | .str s => s
  | .list xs => "[" ++ String.intercalate ", " (pyReprList xs) ++ "]"
  | .none => "None"

/-- Python `repr` of each element of a list (used by `str` on lists). -/
def pyReprList : List Value → List String
  | [] => []
  | .str s :: xs => ("'" ++ s ++ "'") :: pyReprList xs
  | v :: xs => pyStr v :: pyReprList xs

end

/-- Digits of a numeral: `some n` iff the character list is nonempty and all
decimal digits. -/
def parseDigits : List Char → Option ℕ
  | [] => Option.none
  | cs => if cs.all Char.isDigit
      then some (cs.foldl (fun acc c => 10 * acc + (c.toNat - '0'.toNat)) 0)
      else Option.none

/-- Python `int(s)` on an already-stripped string: optional sign, then decimal
digits; raises `ValueError` otherwise. -/
def pyIntOfString (s : String) : Except PyErr ℤ :=
  let core : List Char → Except PyErr ℤ := fun cs =>
    match cs with
    | '+' :: rest => match parseDigits rest with
      | some n => .ok (n : ℤ)
      | Option.none => .error .valueError
    | '-' :: rest => match parseDigits rest with
      | some n => .ok (-(n : ℤ))
      | Option.none => .error .valueError
    | ds => match parseDigits ds with
      | some n => .ok (n : ℤ)
      | Option.none => .error .valueError
  core (pyStrip s).data

/-- Python `float(s)` on a stripped string, on the fragment
`[sign] digits [. digits]`; exotic literals (exponents, `inf`, `nan`) are
beyond the modelled fragment and raise, as does any non-numeral.  No claim
depends on which strings are float-parsable. -/
def pyFloatOfString (s : String) : Except PyErr ℚ :=
  let mantissa : List Char → Except PyErr ℚ := fun cs =>
    match cs.splitOn '.' with
    | [intPart] => match parseDigits intPart with
      | some n => .ok (n : ℚ)
      | Option.none => .error .valueError
    | [intPart, fracPart] =>
      match parseDigits intPart, parseDigits fracPart with
      | some n, some f => .ok ((n : ℚ) + (f : ℚ) / ((10 : ℚ) ^ fracPart.length))
      | _, _ => .error .valueError
    | _ => .error .valueError
  match (pyStrip s).data with
  | '+' :: rest => mantissa rest
  | '-' :: rest => (mantissa rest).map Neg.neg
  | ds => mantissa ds

/-- Is this JSON-ish whitespace? -/
def jsonWs (c : Char) : Bool := c = ' ' ∨ c = '\t' ∨ c = '\n' ∨ c = '\r'

mutual

/-- `Modelled from the spec:` Python's `json.loads` collaborator (stdlib, not
part of this repository's sources).  Modelled as a fuel-bounded
recursive-descent parser on a fragment of JSON (null, booleans, integers,
strings without escapes, and arrays); anything else raises.  No claim depends
on its output, only on the fact that it either returns or raises. -/
def jsonParse : ℕ → List Char → Except PyErr (Value × List Char)
  | 0, _ => .error .valueError
  | fuel + 1, cs =>
    match cs.dropWhile jsonWs with
    | 'n' :: 'u' :: 'l' :: 'l' :: rest => .ok (.none, rest)
    | 't' :: 'r' :: 'u' :: 'e' :: rest => .ok (.bool true, rest)
    | 'f' :: 'a' :: 'l' :: 's' :: 'e' :: rest => .ok (.bool false, rest)
    | '"' :: rest =>
      let body := rest.takeWhile (fun c => c ≠ '"')
      match rest.dropWhile (fun c => c ≠ '"') with
      | '"' :: tail => .ok (.str (String.mk body), tail)
      | _ => .error .valueError
    | '[' :: rest => jsonParseArray fuel rest []
    | '-' :: rest =>
      match parseDigits (rest.takeWhile Char.isDigit) with
      | some n => .ok (.int (-(n : ℤ)), rest.dropWhile Char.isDigit)
      | Option.none => .error .valueError
    | c :: rest =>
      if c.isDigit then
        match parseDigits ((c :: rest).takeWhile Char.isDigit) with
        | some n => .ok (.int (n : ℤ), (c :: rest).dropWhile Char.isDigit)
        | Option.none => .error .valueError
      else .error .valueError
    | [] => .error .valueError

/-- Parse the elements of a JSON array (after the opening bracket). -/
def jsonParseArray : ℕ → List Char → List Value → Except PyErr (Value × List Char)
  | 0, _, _ => .error .valueError
  | fuel + 1, cs, acc =>
    match cs.dropWhile jsonWs with
    | ']' :: rest => .ok (.list acc.reverse, rest)
    | _ => do
      let (v, rest) ← jsonParse fuel cs
      match rest.dropWhile jsonWs with
      | ',' :: rest' => jsonParseArray fuel rest' (v :: acc)
      | ']' :: rest' => .ok (.list (v :: acc).reverse, rest')
      | _ => .error .valueError

end

/-- Python `json.loads(value)`: `TypeError` unless the value is a string,
then parse it as JSON. -/
def jsonLoads (v : Value) : Except PyErr Value :=
  match v with
  | .str s => do
    let (r, rest) ← jsonParse (s.data.length + 1) s.data
    if rest.dropWhile jsonWs = [] then .ok r else .error .valueError
  | _ => .error .typeError

/-!
## Schema Validator/Coercer (`_coerce`, `_validate`)
-/

/-- `isinstance(value, int) and not isinstance(value, bool)`. -/
def isPyInt : Value → Bool
  | .int _ => true
  | _ => false

/-- `isinstance(value, (int, float)) and not isinstance(value, bool)`. -/
def isPyIntOrFloat : Value → Bool
  | .int _ => true
  | .float _ => true
  | _ => false

/-- `isinstance(value, (int, float))` — in Python this also holds of booleans,
`bool` being a subclass of `int`. -/
def isPyNumeric : Value → Bool
  | .int _ => true
  | .float _ => true
  | .bool _ => true
  | _ => false

/-- The numeric magnitude Python uses when comparing a value for which
`isinstance(value, (int, float))` holds (`True == 1`, `False == 0`). -/
def numVal : Value → ℚ
  | .int n => (n : ℚ)
  | .float q => q
  | .bool b => if b then 1 else 0
  | _ => 0

/-- `_coerce(value, expected_type)`.  The `try/except (ValueError, TypeError)`
and `except Exception` blocks of the source are embedded as matches on the
error case of the fallible builtins; an uncaught exception would surface as
`.error`. -/
def coerce (value : Value) (expectedType : String) : Except PyErr Value :=
  if expectedType = "integer" then
    if isPyInt value then .ok value
    else
      match pyIntOfString (pyStrip (pyStr value)) with
      | .ok n => .ok (.int n)
      | .error e =>
        if e = .valueError ∨ e = .typeError then .ok value else .error e
  else if expectedType = "number" then
    if isPyIntOrFloat value then .ok value
    else
      match pyFloatOfString (pyStrip (pyStr value)) with
      | .ok q => .ok (.float q)
      | .error e =>
        if e = .valueError ∨ e = .typeError then .ok value else .error e
  else if expectedType = "boolean" then
    match value with
    | .bool b => .ok (.bool b)
    | .str s => .ok (.bool (["true", "yes", "1"].contains (pyLower s)))
    | v => .ok (.bool (pyTruthy v))
  else if expectedType = "string" then
    match value with
    | .str s => .ok (.str s)
    | v => .ok (.str (pyStr v))
  else if expectedType = "array" then
    match value with
    | .list xs => .ok (.list xs)
    | v =>
      match jsonLoads v with
      | .ok (.list xs) => .ok (.list xs)
      | .ok _ => .ok (.list [v])
      | .error _ => .ok (.list [v])
  else .ok value

/-- `_coerce` as a pure function (the exceptional result never occurs; see
`coerce_total`). -/
def coerceRun (value : Value) (expectedType : String) : Value :=
  match coerce value expectedType with
  | .ok r => r
  | .error _ => value

/-- A declared tool: name, parameter properties (name ↦ declared type) and
required parameter names, as read off the tool's JSON schema. -/
structure ToolSpec where
  name : String
  properties : List (String × String)
  required : List String
deriving DecidableEq

/-- A candidate tool call: a name and an argument mapping.  Argument mappings
are embedded as association lists; Python dicts cannot repeat keys, but none
of the proofs need that restriction. -/
structure Call where
  name : String
  args : List (String × Value)
deriving DecidableEq

/-- `tool_map = {t["name"]: t for t in tool_list}` followed by
`tool_map[name]`: with duplicate names a dict comprehension keeps the last
binding. -/
def toolMapFind (toolList : List ToolSpec) (name : String) : Option ToolSpec :=
  toolList.reverse.find? (fun t => t.name = name)

/-- Dict lookup in a property table (`k in props`, `props[k]`). -/
def propFind (props : List (String × String)) (k : String) : Option (String × String) :=
  props.find? (fun p => p.1 = k)

/-- The body of `_validate`'s inner `for k, v in args.items()` loop: coerce
each argument, failing the whole batch (`Option.none`) when a declared
integer/number coerces to a numeric outside `[-1000, 1_000_000]`. -/
def coerceArgs (props : List (String × String)) :
    List (String × Value) → Except PyErr (Option (List (String × Value)))
  | [] => .ok (some [])
  | (k, v) :: rest =>
    match propFind props k with
    | Option.none => (coerceArgs props rest).map (Option.map (fun t => (k, v) :: t))
    | some p => do
      let coerced ← coerce v p.2
      if (p.2 = "integer" ∨ p.2 = "number") ∧ isPyNumeric coerced
          ∧ (numVal coerced < -1000 ∨ numVal coerced > 1000000) then
        pure Option.none
      else
        (coerceArgs props rest).map (Option.map (fun t => (k, coerced) :: t))

/-- One iteration of `_validate`'s `for call in calls` loop: `Option.none`
means the early `return calls, False`. -/
def validateCall (toolList : List ToolSpec) (call : Call) : Except PyErr (Option Call) :=
  match toolMapFind toolList call.name with
  | Option.none => .ok Option.none
  | some t =>
    if t.required.all (fun f => (call.args.find? (fun kv => kv.1 = f)).isSome) then
      (coerceArgs t.properties call.args).map
        (Option.map (fun args' => { name := call.name, args := args' }))
    else .ok Option.none

/-- The `for call in calls` loop of `_validate`, accumulating `corrected`. -/
def validateLoop (toolList : List ToolSpec) :
    List Call → List Call → Except PyErr (Option (List Call))
  | acc, [] => .ok (some acc.reverse)
  | acc, call :: rest => do
    match ← validateCall toolList call with
    | Option.none => pure Option.none
    | some c => validateLoop toolList (c :: acc) rest

/-- `_validate(calls, tool_list)`: validate and type-coerce calls, returning
`(corrected, is_valid)`. -/
def validate (calls : List Call) (toolList : List ToolSpec) :
    Except PyErr (List Call × Bool) :=
  if calls.isEmpty then .ok (calls, false)
  else do
    match ← validateLoop toolList [] calls with
    | Option.none => pure (calls, false)
    | some corrected => pure (corrected, true)

/-- `_validate` as a pure function (the exceptional result never occurs; see
`coerce_validate_total`). -/
def validateRun (calls : List Call) (toolList : List ToolSpec) : List Call × Bool :=
  match validate calls toolList with
  | .ok r => r
  | .error _ => (calls, false)

/-- Pure mirror of `coerceArgs` (justified by `coerceArgs_eq`). -/
def coerceArgsRun (props : List (String × String)) :
    List (String × Value) → Option (List (String × Value))
  | [] => some []
  | (k, v) :: rest =>
    match propFind props k with
    | Option.none => (coerceArgsRun props rest).map (fun t => (k, v) :: t)
    | some p =>
      let coerced := coerceRun v p.2
      if (p.2 = "integer" ∨ p.2 = "number") ∧ isPyNumeric coerced
          ∧ (numVal coerced < -1000 ∨ numVal coerced > 1000000) then
        Option.none
      else (coerceArgsRun props rest).map (fun t => (k, coerced) :: t)

/-- Pure mirror of `validateCall` (justified by `validateCall_eq`). -/
def validateCallRun (toolList : List ToolSpec) (call : Call) : Option Call :=
  match toolMapFind toolList call.name with
  | Option.none => Option.none
  | some t =>
    if t.required.all (fun f => (call.args.find? (fun kv => kv.1 = f)).isSome) then
      (coerceArgsRun t.properties call.args).map
        (fun args' => { name := call.name, args := args' })
    else Option.none

/-- Pure mirror of `validateLoop` (justified by `validateLoop_eq`). -/
def validateLoopRun (toolList : List ToolSpec) :
    List Call → List Call → Option (List Call)
  | acc, [] => some acc.reverse
  | acc, call :: rest =>
    match validateCallRun toolList call with
    | Option.none => Option.none
    | some c => validateLoopRun toolList (c :: acc) rest

@[simp] theorem exceptBind_ok {ε α β : Type} (a : α) (f : α → Except ε β) :
    (Except.ok a >>= f) = f a := rfl

@[simp] theorem exceptMap_ok {ε α β : Type} (f : α → β) (a : α) :
    Except.map (ε := ε) f (.ok a) = .ok (f a) := rfl

@[simp] theorem exceptIsOk_ok {ε α : Type} (a : α) :
    (Except.ok (ε := ε) a).isOk = true := rfl

@[simp] theorem exceptPure_eq {ε α : Type} (a : α) :
    (pure a : Except ε α) = .ok a := rfl

theorem coerce_isOk (v : Value) (t : String) : (coerce v t).isOk = true := by
  unfold coerce
  split
  · split
    · rfl
    · cases hp : pyIntOfString (pyStrip (pyStr v)) with
      | ok n => simp [hp]
      | error e => cases e <;> simp [hp]
  · split
    · split
      · rfl
      · cases hp : pyFloatOfString (pyStrip (pyStr v)) with
        | ok q => simp [hp]
        | error e => cases e <;> simp [hp]
    · split
      · cases v <;> rfl
      · split
        · cases v <;> rfl
        · split
          · split
            · rfl
            · split <;> rfl
          · rfl

theorem coerce_eq (v : Value) (t : String) : coerce v t = .ok (coerceRun v t) := by
  have hk := coerce_isOk v t
  unfold coerceRun
  cases h : coerce v t with
  | ok r => rfl
  | error e => rw [h] at hk; exact nomatch hk

theorem coerceArgs_eq (props : List (String × String)) (args : List (String × Value)) :
    coerceArgs props args = .ok (coerceArgsRun props args) := by
  induction args with
  | nil => rfl
  | cons kv rest ih =>
    obtain ⟨k, v⟩ := kv
    simp only [coerceArgs, coerceArgsRun]
    cases h : propFind props k with
    | none => simp [h, ih]
    | some p =>
      simp only [h]
      rw [coerce_eq]
      simp only [exceptBind_ok]
      split
      · rfl
      · simp [ih]

theorem validateCall_eq (toolList : List ToolSpec) (call : Call) :
    validateCall toolList call = .ok (validateCallRun toolList call) := by
  unfold validateCall validateCallRun
  cases h : toolMapFind toolList call.name with
  | none => rfl
  | some t =>
    simp only [h]
    split
    · rw [coerceArgs_eq]; rfl
    · rfl

theorem validateLoop_eq (toolList : List ToolSpec) (calls : List Call) : ∀ acc,
    validateLoop toolList acc calls = .ok (validateLoopRun toolList acc calls) := by
  induction calls with
  | nil => intro acc; rfl
  | cons call rest ih =>
    intro acc
    simp only [validateLoop, validateLoopRun]
    rw [validateCall_eq]
    simp only [exceptBind_ok]
    cases h : validateCallRun toolList call with
    | none => simp [h]
    | some c => simp [h, ih]

theorem validate_eq (calls : List Call) (toolList : List ToolSpec) :
    validate calls toolList = .ok (validateRun calls toolList) := by
  unfold validateRun validate
  split
  · rfl
  · rw [validateLoop_eq]
    simp only [exceptBind_ok]
    cases h : validateLoopRun toolList [] calls <;> simp [h]

/-- C10: validation and coercion are total: `_coerce` never raises for any
argument value of any runtime type under any declared parameter type (every
parse failure is caught), and `_validate` always returns a `(calls, flag)`
pair rather than raising. -/
theorem coerce_validate_never_raise (v : Value) (ty : String)
    (calls : List Call) (tools : List ToolSpec) :
    (coerce v ty).isOk = true ∧ (validate calls tools).isOk = true := by
  refine ⟨coerce_isOk v ty, ?_⟩
  rw [validate_eq]
  rfl

/-- The claim-side numeric-range condition: a coerced value that is numeric
must lie in `[-1000, 1_000_000]` (a coerced boolean counts as `0`/`1` and is
always in range; non-numeric coerced values are unconstrained). -/
def inRangeB (v : Value) : Bool :=
  match v with
  | .int n => -1000 ≤ n ∧ n ≤ 1000000
  | .float q => -1000 ≤ q ∧ q ≤ 1000000
  | _ => true

/-- The validity condition exactly as the claim states it (written from the
spec's words, to be compared with the source-derived `validate`): the call
list is non-empty, every call names a declared tool, every required parameter
of that tool is present, and every declared integer/number argument that
coerces to a numeric value lies in `[-1000, 1_000_000]`. -/
def specBatchValid (calls : List Call) (toolList : List ToolSpec) : Bool :=
  (¬ calls.isEmpty) &&
  calls.all (fun call =>
    match toolMapFind toolList call.name with
    | Option.none => false
    | some t =>
      t.required.all (fun f => call.args.any (fun kv => kv.1 = f)) &&
      call.args.all (fun kv =>
        match propFind t.properties kv.1 with
        | Option.none => true
        | some p =>
          if p.2 = "integer" ∨ p.2 = "number" then inRangeB (coerceRun kv.2 p.2)
          else true))

theorem inRangeB_iff (v : Value) :
    inRangeB v = true ↔
      ¬ (isPyNumeric v = true ∧ (numVal v < -1000 ∨ numVal v > 1000000)) := by
  cases v with
  | int n =>
    simp only [inRangeB, isPyNumeric, numVal, decide_eq_true_eq, Bool.and_eq_true,
      true_and, not_or, not_lt, gt_iff_lt]
    constructor
    · intro h
      have h1 : (-1000 : ℚ) ≤ (n : ℚ) := by exact_mod_cast h.1
      have h2 : (n : ℚ) ≤ 1000000 := by exact_mod_cast h.2
      exact ⟨h1, h2⟩
    · intro h
      constructor
      · exact_mod_cast h.1
      · exact_mod_cast h.2
  | float q =>
    simp only [inRangeB, isPyNumeric, numVal, decide_eq_true_eq, Bool.and_eq_true,
      true_and, not_or, not_lt, gt_iff_lt]
  | bool b =>
    simp only [inRangeB, isPyNumeric, numVal, true_and, not_or, not_lt]
    cases b <;> norm_num
  | str s => simp [inRangeB, isPyNumeric]
  | list xs => simp [inRangeB, isPyNumeric]
  | none => simp [inRangeB, isPyNumeric]

theorem coerceArgsRun_isSome (props : List (String × String)) (args : List (String × Value)) :
    (coerceArgsRun props args).isSome = true ↔
      args.all (fun kv =>
        match propFind props kv.1 with
        | Option.none => true
        | some p =>
          if p.2 = "integer" ∨ p.2 = "number" then inRangeB (coerceRun kv.2 p.2)
          else true) = true := by
  induction args with
  | nil => simp [coerceArgsRun]
  | cons kv rest ih =>
    obtain ⟨k, v⟩ := kv
    simp only [coerceArgsRun, List.all_cons, Bool.and_eq_true]
    cases h : propFind props k with
    | none => simpa [h] using ih
    | some p =>
      simp only [h]
      split
      · rename_i hcond
        obtain ⟨hty, hnum, hrange⟩ := hcond
        simp only [Option.isSome_none, Bool.false_eq_true, false_iff, not_and]
        intro hin
        rw [if_pos hty, inRangeB_iff] at hin
        exact absurd (hin ⟨hnum, hrange⟩) (fun h => h)
      · rename_i hcond
        have hin : (if p.2 = "integer" ∨ p.2 = "number"
            then inRangeB (coerceRun v p.2) else true) = true := by
          split
          · rename_i hty
            rw [inRangeB_iff]
            intro hc
            exact hcond ⟨hty, hc.1, hc.2⟩
          · rfl
        simp [hin, ih]

theorem validateCallRun_isSome (toolList : List ToolSpec) (call : Call) :
    (validateCallRun toolList call).isSome = true ↔
      (match toolMapFind toolList call.name with
        | Option.none => false
        | some t =>
          t.required.all (fun f => call.args.any (fun kv => kv.1 = f)) &&
          call.args.all (fun kv =>
            match propFind t.properties kv.1 with
            | Option.none => true
            | some p =>
              if p.2 = "integer" ∨ p.2 = "number" then inRangeB (coerceRun kv.2 p.2)
              else true)) = true := by
  unfold validateCallRun
  cases h : toolMapFind toolList call.name with
  | none => simp
  | some t =>
    simp only [Bool.and_eq_true]
    split
    · rename_i hreq
      have hreq' : t.required.all (fun f => call.args.any (fun kv => kv.1 = f)) = true := by
        rw [List.all_eq_true] at hreq ⊢
        intro f hf
        have := hreq f hf
        rw [List.find?_isSome] at this
        simp only [List.any_eq_true]
        obtain ⟨kv, hkv, hp⟩ := this
        exact ⟨kv, hkv, hp⟩
      have hmap : ∀ (o : Option (List (String × Value))) (f : List (String × Value) → Call),
          (o.map f).isSome = o.isSome := by
        intro o f; cases o <;> rfl
      rw [hmap, coerceArgsRun_isSome]
      simp [hreq']
    · rename_i hreq
      simp only [Option.isSome_none, Bool.false_eq_true, false_iff, not_and]
      intro hall
      exfalso
      apply hreq
      rw [List.all_eq_true] at hall ⊢
      intro f hf
      have := hall f hf
      rw [List.find?_isSome]
      simp only [List.any_eq_true] at this
      obtain ⟨kv, hkv, hp⟩ := this
      exact ⟨kv, hkv, hp⟩

theorem validateLoopRun_isSome (toolList : List ToolSpec) (calls : List Call) : ∀ acc,
    (validateLoopRun toolList acc calls).isSome = true ↔
      calls.all (fun call => (validateCallRun toolList call).isSome) = true := by
  induction calls with
  | nil => intro acc; simp [validateLoopRun]
  | cons call rest ih =>
    intro acc
    simp only [validateLoopRun, List.all_cons, Bool.and_eq_true]
    cases h : validateCallRun toolList call with
    | none => simp [h]
    | some c => simp [h, ih]

theorem validateRun_eq (calls : List Call) (toolList : List ToolSpec) :
    validateRun calls toolList =
      if calls.isEmpty then (calls, false)
      else
        match validateLoopRun toolList [] calls with
        | Option.none => (calls, false)
        | some corrected => (corrected, true) := by
  have h := validate_eq calls toolList
  unfold validate at h
  split
  · rename_i hempty
    rw [if_pos hempty] at h
    simpa using h.symm
  · rename_i hempty
    rw [if_neg hempty, validateLoop_eq] at h
    simp only [exceptBind_ok] at h
    revert h
    cases hl : validateLoopRun toolList [] calls with
    | none => intro h; simpa using h.symm
    | some corrected => intro h; simpa using h.symm

/-- C2: `_validate` returns `(corrected, true)` iff the call list is
non-empty, every call names a declared tool, every required parameter of that
tool is present in the call's arguments, and every declared integer/number
argument that coerces to a numeric value lies in `[-1000, 1_000_000]`;
otherwise the whole batch is invalid (no partial repair). -/
theorem validate_valid_iff (calls : List Call) (toolList : List ToolSpec) :
    (validateRun calls toolList).2 = true ↔ specBatchValid calls toolList = true := by
  rw [validateRun_eq]
  unfold specBatchValid
  split
  · rename_i hempty
    simp [hempty]
  · rename_i hempty
    have hiff := validateLoopRun_isSome toolList calls []
    cases h : validateLoopRun toolList [] calls with
    | none =>
      rw [h] at hiff
      simp only [Option.isSome_none, Bool.false_eq_true, false_iff] at hiff
      simp only [Bool.and_eq_true]
      constructor
      · intro hfalse; exact nomatch hfalse
      · rintro ⟨-, hall⟩
        refine absurd ?_ hiff
        rw [List.all_eq_true] at hall ⊢
        intro call hc
        rw [validateCallRun_isSome]
        exact hall call hc
    | some corrected =>
      rw [h] at hiff
      simp only [Option.isSome_some, true_iff] at hiff
      simp only [Bool.and_eq_true]
      constructor
      · intro _
        refine ⟨by simp [hempty], ?_⟩
        rw [List.all_eq_true] at hiff ⊢
        intro call hc
        have := hiff call hc
        rwa [validateCallRun_isSome] at this
      · intro _
        trivial

/-- C8 counterexample: for the string `"no"` (declared boolean), the claim
predicts truthiness of the raw value (`True`, since `"no"` is a non-empty
string), but `_coerce` maps every string through the
`value.lower() in ("true", "yes", "1")` membership test, yielding `False`. -/
theorem coerce_boolean_counterexample :
    coerceRun (Value.str "no") "boolean" = Value.bool false
      ∧ pyTruthy (Value.str "no") = true
      ∧ coerceRun (Value.str "no") "boolean" ≠ Value.bool (pyTruthy (Value.str "no")) := by
  refine ⟨rfl, rfl, ?_⟩
  intro h
  exact nomatch h

/-- C8 (amended): for boolean-declared arguments, `_coerce` passes booleans
through unchanged; it maps every string through the case-insensitive
membership test against `"true"`/`"yes"`/`"1"` (so any other string becomes
`false`, not its truthiness); and only for non-boolean, non-string values
does it derive the result from the raw value's truthiness. -/
theorem coerce_boolean_amended :
    (∀ b : Bool, coerceRun (Value.bool b) "boolean" = Value.bool b)
      ∧ (∀ s : String,
          coerceRun (Value.str s) "boolean"
            = Value.bool (["true", "yes", "1"].contains (pyLower s)))
      ∧ (∀ v : Value, (∀ b, v ≠ Value.bool b) → (∀ s, v ≠ Value.str s) →
          coerceRun v "boolean" = Value.bool (pyTruthy v)) := by
  refine ⟨fun b => rfl, fun s => rfl, ?_⟩
  intro v hb hs
  cases v with
  | int n => rfl
  | float q => rfl
  | bool b => exact absurd rfl (hb b)
  | str s => exact absurd rfl (hs s)
  | list xs => rfl
  | none => rfl

/-- Witness for `coerce_boolean_amended` at concrete inputs. -/
theorem coerce_boolean_amended_witness :
    coerceRun (Value.str "YES") "boolean" = Value.bool true
      ∧ coerceRun (Value.int 5) "boolean" = Value.bool (pyTruthy (Value.int 5)) := by
  constructor
  · rw [coerce_boolean_amended.2.1 "YES"]
    rfl
  · exact coerce_boolean_amended.2.2 (Value.int 5)
      (fun b h => nomatch h) (fun s h => nomatch h)

/-!
## Fingerprint (`_fingerprint`)

Python's `sorted` on tuples sorts by the lexicographic order on tuples; the
embedding uses `List.insertionSort` by the same (total, antisymmetric)
lexicographic order, which produces the identical output list for any input.
-/

/-- `tuple(sorted((k, str(v)) for k, v in c["arguments"].items()))`. -/
def canonArgs (args : List (String × Value)) : List (String ×ₗ String) :=
  List.insertionSort (· ≤ ·) (args.map (fun kv => toLex (kv.1, pyStr kv.2)))

/-- The per-call canonical key `(c["name"], tuple(sorted(...)))`. -/
def canonCall (c : Call) : String ×ₗ List (String ×ₗ String) :=
  toLex (c.name, canonArgs c.args)

/-- `_fingerprint(calls)`: hashable, order-independent key for a list of
function calls. -/
def fingerprint (calls : List Call) : List (String ×ₗ List (String ×ₗ String)) :=
  List.insertionSort (· ≤ ·) (calls.map canonCall)

/-- The claim-side canonical content of a call: its name paired with the
multiset of its (key, stringified-value) argument pairs. -/
def specPair (c : Call) : String × Multiset (String ×ₗ String) :=
  (c.name, (↑(c.args.map (fun kv => toLex (kv.1, pyStr kv.2))) : Multiset (String ×ₗ String)))

theorem insertionSort_eq_iff_perm {α : Type} [LinearOrder α] (l₁ l₂ : List α) :
    List.insertionSort (· ≤ ·) l₁ = List.insertionSort (· ≤ ·) l₂ ↔ l₁.Perm l₂ := by
  constructor
  · intro h
    have p1 := List.perm_insertionSort (α := α) (· ≤ ·) l₁
    have p2 := List.perm_insertionSort (α := α) (· ≤ ·) l₂
    exact p1.symm.trans (h ▸ p2)
  · intro h
    exact List.eq_of_perm_of_sorted
      ((List.perm_insertionSort _ l₁).trans (h.trans (List.perm_insertionSort _ l₂).symm))
      (List.sorted_insertionSort _ l₁) (List.sorted_insertionSort _ l₂)

/-- The sorted presentation of a claim-side canonical pair. -/
def sortedOfPair (p : String × Multiset (String ×ₗ String)) :
    String ×ₗ List (String ×ₗ String) :=
  toLex (p.1, Multiset.sort (· ≤ ·) p.2)

theorem canonCall_eq_sortedOfPair (c : Call) :
    canonCall c = sortedOfPair (specPair c) := by
  unfold canonCall sortedOfPair specPair canonArgs
  dsimp only
  congr 1
  refine Prod.ext rfl ?_
  dsimp only
  exact List.eq_of_perm_of_sorted
    ((List.perm_insertionSort _ _).trans (Multiset.coe_eq_coe.mp (Multiset.sort_eq _ _)).symm)
    (List.sorted_insertionSort _ _) (Multiset.sort_sorted _ _)

theorem sortedOfPair_injective : Function.Injective sortedOfPair := by
  intro p q h
  unfold sortedOfPair at h
  have h' : (p.1, Multiset.sort (fun x1 x2 => x1 ≤ x2) p.2)
      = (q.1, Multiset.sort (fun x1 x2 => x1 ≤ x2) q.2) := toLex.injective h
  injection h' with h1 h2
  have h3 : p.2 = q.2 := by
    rw [← Multiset.sort_eq (fun x1 x2 : String ×ₗ String => x1 ≤ x2) p.2,
      ← Multiset.sort_eq (fun x1 x2 : String ×ₗ String => x1 ≤ x2) q.2, h2]
  exact Prod.ext h1 h3

/-- C5: `_fingerprint` is invariant under permuting the order of calls and
under permuting the order of arguments within any call, and two call
sequences have equal fingerprints iff they contain the same multiset of
(name, argument-multiset) pairs. -/
theorem fingerprint_perm_invariant_iff :
    (∀ l₁ l₂ : List Call, l₁.Perm l₂ → fingerprint l₁ = fingerprint l₂)
    ∧ (∀ (pre post : List Call) (c₁ c₂ : Call), c₁.name = c₂.name →
        c₁.args.Perm c₂.args →
        fingerprint (pre ++ c₁ :: post) = fingerprint (pre ++ c₂ :: post))
    ∧ (∀ l₁ l₂ : List Call, fingerprint l₁ = fingerprint l₂ ↔
        Multiset.map specPair ↑l₁ = Multiset.map specPair ↑l₂) := by
  have hcomp : sortedOfPair ∘ specPair = canonCall :=
    funext (fun c => (canonCall_eq_sortedOfPair c).symm)
  have hm : ∀ l : List Call,
      Multiset.map sortedOfPair (Multiset.map specPair ↑l)
        = (↑(l.map canonCall) : Multiset (String ×ₗ List (String ×ₗ String))) := by
    intro l
    rw [Multiset.map_map, hcomp]
    rfl
  have hiff : ∀ l₁ l₂ : List Call, fingerprint l₁ = fingerprint l₂ ↔
      Multiset.map specPair ↑l₁ = Multiset.map specPair ↑l₂ := by
    intro l₁ l₂
    unfold fingerprint
    rw [insertionSort_eq_iff_perm, ← Multiset.coe_eq_coe, ← hm, ← hm]
    constructor
    · intro h
      exact Multiset.map_injective sortedOfPair_injective h
    · intro h
      rw [h]
  refine ⟨?_, ?_, hiff⟩
  · intro l₁ l₂ hperm
    rw [hiff]
    congr 1
    exact Multiset.coe_eq_coe.mpr hperm
  · intro pre post c₁ c₂ hname hargs
    rw [hiff]
    have hspec : specPair c₁ = specPair c₂ := by
      unfold specPair
      refine Prod.ext hname ?_
      dsimp only
      rw [Multiset.coe_eq_coe]
      exact hargs.map _
    have hlist : (pre ++ c₁ :: post).map specPair = (pre ++ c₂ :: post).map specPair := by
      simp [hspec]
    calc Multiset.map specPair ↑(pre ++ c₁ :: post)
        = (↑((pre ++ c₁ :: post).map specPair) : Multiset (String × Multiset (String ×ₗ String))) := rfl
      _ = (↑((pre ++ c₂ :: post).map specPair) : Multiset (String × Multiset (String ×ₗ String))) := by
          rw [hlist]
      _ = Multiset.map specPair ↑(pre ++ c₂ :: post) := rfl

/-- Witness for `fingerprint_perm_invariant_iff` at concrete inputs. -/
theorem fingerprint_perm_witness :
    fingerprint [⟨"alarm", [("h", Value.int 6)]⟩, ⟨"weather", []⟩]
      = fingerprint [⟨"weather", []⟩, ⟨"alarm", [("h", Value.int 6)]⟩] :=
  fingerprint_perm_invariant_iff.1 _ _ (List.Perm.swap _ _ _)

/-!
## Decomposer (`_decompose`)

The two `re.split` patterns are embedded as explicit left-to-right scanners.
For the literal patterns `,\s+and\s+|,\s+` and `\s+and\s+` the regex engine's
backtracking never changes the outcome (no alternative can start with the
character following a maximal whitespace run), so a greedy scan is exact.
The fuel argument only bounds the scan by the input length; every step
consumes at least one character.
-/

/-- Scanner for `re.split(r',\s+and\s+|,\s+', message)`. -/
def primarySplitGo : ℕ → List Char → List Char → List (List Char)
  | 0, acc, _ => [acc.reverse]
  | _ + 1, acc, [] => [acc.reverse]
  | fuel + 1, acc, ',' :: rest =>
    if (rest.takeWhile pyWsB).isEmpty then primarySplitGo fuel (',' :: acc) rest
    else
      match rest.dropWhile pyWsB with
      | 'a' :: 'n' :: 'd' :: c2 :: r3 =>
        if pyWsB c2 then acc.reverse :: primarySplitGo fuel [] ((c2 :: r3).dropWhile pyWsB)
        else acc.reverse :: primarySplitGo fuel [] ('a' :: 'n' :: 'd' :: c2 :: r3)
      | other => acc.reverse :: primarySplitGo fuel [] other
  | fuel + 1, acc, c :: rest => primarySplitGo fuel (c :: acc) rest

/-- Scanner for `re.split(r'\s+and\s+', message, flags=re.IGNORECASE)`. -/
def secondarySplitGo : ℕ → List Char → List Char → List (List Char)
  | 0, acc, _ => [acc.reverse]
  | _ + 1, acc, [] => [acc.reverse]
  | fuel + 1, acc, c :: rest =>
    if pyWsB c then
      let run := c :: rest.takeWhile pyWsB
      match rest.dropWhile pyWsB with
      | x :: y :: z :: w :: r2 =>
        if x.toLower = 'a' ∧ y.toLower = 'n' ∧ z.toLower = 'd' ∧ pyWsB w then
          acc.reverse :: secondarySplitGo fuel [] ((w :: r2).dropWhile pyWsB)
        else secondarySplitGo fuel (run.reverse ++ acc) (x :: y :: z :: w :: r2)
      | other => secondarySplitGo fuel (run.reverse ++ acc) other
    else secondarySplitGo fuel (c :: acc) rest

/-- `re.sub(r'(?i)^and\s+', '', p)`. -/
def stripLeadAnd (l : List Char) : List Char :=
  match l with
  | a :: n :: d :: c :: rest =>
    if a.toLower = 'a' ∧ n.toLower = 'n' ∧ d.toLower = 'd' ∧ pyWsB c then
      (c :: rest).dropWhile pyWsB
    else l
  | _ => l

/-- `p.strip()` on character lists. -/
def stripWs (l : List Char) : List Char :=
  ((l.dropWhile pyWsB).reverse.dropWhile pyWsB).reverse

/-- `p.split()` (whitespace tokenisation, no empty tokens). -/
def pyWordsGo : ℕ → List Char → List (List Char)
  | 0, _ => []
  | _ + 1, [] => []
  | fuel + 1, c :: rest =>
    if pyWsB c then pyWordsGo fuel rest
    else (c :: rest.takeWhile (fun x => ¬ pyWsB x))
      :: pyWordsGo fuel (rest.dropWhile (fun x => ¬ pyWsB x))

/-- `p.split()` on a character list. -/
def pyWords (l : List Char) : List (List Char) :=
  pyWordsGo (l.length + 1) l

/-- `w.rstrip("'s")`: strip trailing apostrophes and `s`. -/
def rstripApostropheS (l : List Char) : List Char :=
  (l.reverse.dropWhile (fun c => c = 's' ∨ c = Char.ofNat 39)).reverse

/-- The `_VERBS` set. -/
def verbSet : List String :=
  ["set", "send", "play", "get", "find", "search", "look", "check",
   "create", "make", "add", "call", "text", "remind", "show", "turn",
   "open", "close", "start", "stop", "enable", "disable", "run",
   "schedule", "book", "cancel", "delete", "update", "read", "wake",
   "fetch", "list", "tell", "ask", "go"]

/-- `p.split()[0].lower().rstrip("'s") in _VERBS` (false on empty input; the
source only evaluates this on clauses already known to have ≥ 3 words). -/
def firstWordVerb (p : List Char) : Bool :=
  match pyWords p with
  | [] => false
  | w :: _ => verbSet.contains (String.mk (rstripApostropheS (w.map Char.toLower)))

/-- `_decompose(message)`. -/
def decompose (message : String) : List String :=
  let parts0 := primarySplitGo (message.data.length + 1) [] message.data
  let parts1 := (parts0.filter (fun p => ¬ (stripWs p).isEmpty)).map
    (fun p => stripWs (stripLeadAnd p))
  let parts2 :=
    if parts1.length = 1 then
      let cands := (secondarySplitGo (message.data.length + 1) [] message.data).map stripWs
      if 1 < cands.length
          ∧ cands.all (fun p => 3 ≤ (pyWords p).length)
          ∧ cands.all (fun p => firstWordVerb p) then cands
      else parts1
    else parts1
  let parts3 := parts2.filter (fun p => 2 ≤ (pyWords p).length)
  if 1 < parts3.length then parts3.map String.mk else [message]

theorem decomposeTail_length (L : List (List Char)) (t : String) :
    1 ≤ (if 1 < L.length then L.map String.mk else [t]).length := by
  split
  · rename_i h
    simp only [List.length_map]
    omega
  · simp

/-- C9: `_decompose` always returns at least one part (a single-element list
containing the original text when fewer than two usable clauses remain), and
behaves as specified on the two reference examples. -/
theorem decompose_contract :
    (∀ t : String, 1 ≤ (decompose t).length)
    ∧ decompose "Set an alarm for 6:00 AM, and check the weather in Paris"
        = ["Set an alarm for 6:00 AM", "check the weather in Paris"]
    ∧ decompose "Play some jazz" = ["Play some jazz"] := by
  refine ⟨?_, ?_, ?_⟩
  · intro t
    unfold decompose
    exact decomposeTail_length _ t
  · rfl
  · rfl

/-!
## Resolver, Consensus and Hybrid Orchestrator
(`generate_hybrid`, `_self_consistent_with_first`, `_on_device`, `_resolve`)

The local-inference collaborator is a stream `gc : ℕ → SampleRun` indexed by
the position of the call in the request's strictly sequential call order (the
code's `generate_cactus(msgs, tools)`; indexing by call order subsumes any
dependence of the nondeterministic collaborator on its arguments).  The
remote collaborator is `gcl : List Msg → CloudRun`.  Each embedded function
threads the next stream index, and `generateHybrid` additionally returns the
final stream index (= number of local calls) and the log of message lists
passed to the remote collaborator.
-/

/-- A chat message. -/
structure Msg where
  role : String
  content : String
deriving DecidableEq

/-- One local-inference attempt (`generate_cactus` output). -/
structure SampleRun where
  function_calls : List Call
  confidence : ℚ
  total_time_ms : ℚ
deriving DecidableEq

/-- One remote-inference result (`generate_cloud` output). -/
structure CloudRun where
  function_calls : List Call
  total_time_ms : ℚ
deriving DecidableEq

/-- An accepted on-device result (`_on_device` / `_self_consistent_with_first`
result dict). -/
structure DeviceResult where
  function_calls : List Call
  confidence : ℚ
  total_time_ms : ℚ
deriving DecidableEq

/-- The orchestrator's result dict. `confidence` is only present on the
whole-message on-device path. -/
structure HybridResult where
  function_calls : List Call
  total_time_ms : ℚ
  source : String
  confidence : Option ℚ
deriving DecidableEq

/-- `N_SAMPLES = 3`. -/
def nSamples : ℕ := 3

/-- The fingerprint key type. -/
abbrev FpKey := List (String ×ₗ List (String ×ₗ String))

/-- Number of valid runs in the pool sharing a fingerprint
(`Counter(_fingerprint(r[0]) for r in valid_runs)[key]`). -/
def countFp (pool : List (List Call × ℚ)) (key : FpKey) : ℕ :=
  (pool.filter (fun r => fingerprint r.1 = key)).length

/-- `counts.most_common(1)[0]`: the first-encountered fingerprint of maximal
count (`Counter` iterates keys in first-insertion order and `most_common`
breaks count ties by that order); `Option.none` on an empty pool. -/
def mostCommonFp (pool : List (List Call × ℚ)) : Option (FpKey × ℕ) :=
  (pool.map (fun r => fingerprint r.1)).foldl
    (fun best k =>
      match best with
      | Option.none => some (k, countFp pool k)
      | some b => if countFp pool k > b.2 then some (k, countFp pool k) else some b)
    Option.none

/-- `max(candidates, key=lambda r: r[1])`: first element of maximal
confidence. -/
def maxByConf : List (List Call × ℚ) → Option (List Call × ℚ)
  | [] => Option.none
  | r :: rs => some (rs.foldl (fun best x => if x.2 > best.2 then x else best) r)

/-- `max(2, n // 2 + 1)`. -/
def consensusThreshold (n : ℕ) : ℕ := max 2 (n / 2 + 1)

/-- The consensus decision over the pool of valid runs (the tail of
`_self_consistent_with_first` from `if not valid_runs:` on). -/
def consensus (pool : List (List Call × ℚ)) (n : ℕ) : Option (List Call × ℚ) :=
  match mostCommonFp pool with
  | Option.none => Option.none
  | some b =>
    if consensusThreshold n ≤ b.2 then
      maxByConf (pool.filter (fun r => fingerprint r.1 = b.1))
    else Option.none

/-- The `for _ in range(n - 1)` sampling loop of
`_self_consistent_with_first`: validate each new sample, keep the valid ones,
accumulate latency. -/
def sampleLoop (gc : ℕ → SampleRun) (toolList : List ToolSpec) :
    ℕ → List (List Call × ℚ) → ℚ → ℕ → List (List Call × ℚ) × ℚ × ℕ
  | 0, pool, spent, k => (pool, spent, k)
  | m + 1, pool, spent, k =>
    let localRun := gc k
    let vr := validateRun localRun.function_calls toolList
    sampleLoop gc toolList m
      (if vr.2 then pool ++ [(vr.1, localRun.confidence)] else pool)
      (spent + localRun.total_time_ms) (k + 1)

/-- `_self_consistent_with_first(first_run, msgs, tool_list, n)`: reuse
`first`, run `n - 1` more samples, return the majority-consensus result (or
none) together with the time spent and the next stream index. -/
def selfConsistentWithFirst (gc : ℕ → SampleRun) (toolList : List ToolSpec)
    (first : SampleRun) (n : ℕ) (k : ℕ) : Option DeviceResult × ℚ × ℕ :=
  let vr0 := validateRun first.function_calls toolList
  let base := if vr0.2 then [(vr0.1, first.confidence)] else []
  let loopOut := sampleLoop gc toolList (n - 1) base first.total_time_ms k
  match consensus loopOut.1 n with
  | some best => (some ⟨best.1, best.2, loopOut.2.1⟩, loopOut.2.1, loopOut.2.2)
  | Option.none => (Option.none, loopOut.2.1, loopOut.2.2)

/-- `_on_device(msgs, tool_list)`: fast path on a valid, high-confidence
first sample, otherwise self-consistency.  (`msgs` is forwarded to the
collaborator, which the embedding addresses by stream position.) -/
def onDevice (gc : ℕ → SampleRun) (msgs : List Msg) (toolList : List ToolSpec)
    (threshold : ℚ) (k : ℕ) : Option DeviceResult × ℚ × ℕ :=
  let first := gc k
  let vr := validateRun first.function_calls toolList
  if vr.2 ∧ first.confidence ≥ threshold then
    (some ⟨vr.1, first.confidence, first.total_time_ms⟩, first.total_time_ms, k + 1)
  else
    selfConsistentWithFirst gc toolList first nSamples (k + 1)

/-- The sequential per-part loop shared by `_resolve`'s decomposition branch
and the orchestrator's top-level `for sub_content in sub_contents` loop:
resolve each part in order, concatenate calls, stop at the first failure
(discarding the accumulated calls but keeping the accumulated latency). -/
def resolveParts (step : String → ℕ → Option (List Call) × ℚ × ℕ) :
    List String → List Call → ℚ → ℕ → Option (List Call) × ℚ × ℕ
  | [], acc, total, k => (some acc, total, k)
  | p :: ps, acc, total, k =>
    let r := step p k
    match r.1 with
    | Option.none => (Option.none, total + r.2.1, r.2.2)
    | some cs => resolveParts step ps (acc ++ cs) (total + r.2.1) r.2.2

/-- `{"role": "user", "content": content}`. -/
def userMsg (content : String) : Msg := ⟨"user", content⟩

/-- `_resolve(content, depth, max_depth)`, embedded by recursion on the
remaining depth `fuel = max_depth - depth` (the code's guard
`depth < max_depth` is exactly `fuel > 0`, since `depth` only increases by
one per recursion level). -/
def resolveFuel (gc : ℕ → SampleRun) (toolList : List ToolSpec) (nonUser : List Msg)
    (threshold : ℚ) : ℕ → String → ℕ → Option (List Call) × ℚ × ℕ
  | fuel, content, k =>
    let od := onDevice gc (nonUser ++ [userMsg content]) toolList threshold k
    match od.1 with
    | some r => (some r.function_calls, od.2.1, od.2.2)
    | Option.none =>
      match fuel with
      | 0 => (Option.none, od.2.1, od.2.2)
      | f + 1 =>
        let parts := decompose content
        if 1 < parts.length then
          resolveParts (fun p k' => resolveFuel gc toolList nonUser threshold f p k')
            parts [] od.2.1 od.2.2
        else (Option.none, od.2.1, od.2.2)

/-- `generate_hybrid(messages, tools, confidence_threshold)`.  Returns the
result dict, the number of local-inference calls issued, and the log of
message lists passed to the remote collaborator. -/
def generateHybrid (gc : ℕ → SampleRun) (gcl : List Msg → CloudRun)
    (messages : List Msg) (tools : List ToolSpec) (threshold : ℚ) :
    HybridResult × ℕ × List (List Msg) :=
  let userMsgs := messages.filter (fun m => m.role = "user")
  let nonUser := messages.filter (fun m => ¬ m.role = "user")
  let od := onDevice gc messages tools threshold 0
  match od.1 with
  | some r =>
    ({ function_calls := r.function_calls, total_time_ms := r.total_time_ms,
       source := "on-device", confidence := some r.confidence }, od.2.2, [])
  | Option.none =>
    match userMsgs.getLast? with
    | some u =>
      let parts := decompose u.content
      if 1 < parts.length then
        let rp := resolveParts
          (fun p k' => resolveFuel gc tools nonUser threshold 2 p k')
          parts [] od.2.1 od.2.2
        match rp.1 with
        | some allCalls =>
          ({ function_calls := allCalls, total_time_ms := rp.2.1,
             source := "on-device", confidence := Option.none }, rp.2.2, [])
        | Option.none =>
          let cloud := gcl messages
          ({ function_calls := cloud.function_calls,
             total_time_ms := cloud.total_time_ms + rp.2.1,
             source := "cloud (fallback)", confidence := Option.none },
           rp.2.2, [messages])
      else
        let cloud := gcl messages
        ({ function_calls := cloud.function_calls,
           total_time_ms := cloud.total_time_ms + od.2.1,
           source := "cloud (fallback)", confidence := Option.none },
         od.2.2, [messages])
    | Option.none =>
      let cloud := gcl messages
      ({ function_calls := cloud.function_calls,
         total_time_ms := cloud.total_time_ms + od.2.1,
         source := "cloud (fallback)", confidence := Option.none },
       od.2.2, [messages])

/-- Total latency of the `m` local-inference calls starting at stream
position `a`. -/
def localSpent (gc : ℕ → SampleRun) (a : ℕ) : ℕ → ℚ
  | 0 => 0
  | m + 1 => localSpent gc a m + (gc (a + m)).total_time_ms

theorem localSpent_front (gc : ℕ → SampleRun) (a : ℕ) : ∀ m,
    localSpent gc a (m + 1) = (gc a).total_time_ms + localSpent gc (a + 1) m := by
  intro m
  induction m with
  | zero => simp [localSpent]
  | succ m ih =>
    have harg : a + 1 + m = a + (m + 1) := by omega
    calc localSpent gc a (m + 1 + 1)
        = localSpent gc a (m + 1) + (gc (a + (m + 1))).total_time_ms := rfl
      _ = (gc a).total_time_ms + localSpent gc (a + 1) m + (gc (a + (m + 1))).total_time_ms := by
          rw [ih]
      _ = (gc a).total_time_ms + (localSpent gc (a + 1) m + (gc (a + 1 + m)).total_time_ms) := by
          rw [harg]; ring
      _ = (gc a).total_time_ms + localSpent gc (a + 1) (m + 1) := rfl

theorem localSpent_add (gc : ℕ → SampleRun) (a m : ℕ) : ∀ M,
    localSpent gc a (m + M) = localSpent gc a m + localSpent gc (a + m) M := by
  intro M
  induction M with
  | zero => simp [localSpent]
  | succ M ih =>
    have harg : a + m + M = a + (m + M) := by omega
    calc localSpent gc a (m + (M + 1))
        = localSpent gc a (m + M) + (gc (a + (m + M))).total_time_ms := rfl
      _ = localSpent gc a m + localSpent gc (a + m) M + (gc (a + m + M)).total_time_ms := by
          rw [ih, harg]
      _ = localSpent gc a m + localSpent gc (a + m) (M + 1) := by
          rw [show localSpent gc (a + m) (M + 1)
              = localSpent gc (a + m) M + (gc (a + m + M)).total_time_ms from rfl]
          ring

theorem sampleLoop_shape (gc : ℕ → SampleRun) (toolList : List ToolSpec) : ∀ m pool spent k,
    (sampleLoop gc toolList m pool spent k).2.1 = spent + localSpent gc k m
    ∧ (sampleLoop gc toolList m pool spent k).2.2 = k + m := by
  intro m
  induction m with
  | zero => intro pool spent k; simp [sampleLoop, localSpent]
  | succ m ih =>
    intro pool spent k
    have h := ih (if (validateRun (gc k).function_calls toolList).2
        then pool ++ [((validateRun (gc k).function_calls toolList).1, (gc k).confidence)]
        else pool) (spent + (gc k).total_time_ms) (k + 1)
    constructor
    · rw [show sampleLoop gc toolList (m + 1) pool spent k
          = sampleLoop gc toolList m
            (if (validateRun (gc k).function_calls toolList).2
              then pool ++ [((validateRun (gc k).function_calls toolList).1, (gc k).confidence)]
              else pool)
            (spent + (gc k).total_time_ms) (k + 1) from rfl, h.1, localSpent_front]
      ring
    · rw [show sampleLoop gc toolList (m + 1) pool spent k
          = sampleLoop gc toolList m
            (if (validateRun (gc k).function_calls toolList).2
              then pool ++ [((validateRun (gc k).function_calls toolList).1, (gc k).confidence)]
              else pool)
            (spent + (gc k).total_time_ms) (k + 1) from rfl, h.2]
      omega

theorem selfConsistent_shape (gc : ℕ → SampleRun) (toolList : List ToolSpec)
    (first : SampleRun) (n k : ℕ) :
    (selfConsistentWithFirst gc toolList first n k).2.1
      = first.total_time_ms + localSpent gc k (n - 1)
    ∧ (selfConsistentWithFirst gc toolList first n k).2.2 = k + (n - 1) := by
  unfold selfConsistentWithFirst
  have h := sampleLoop_shape gc toolList (n - 1)
    (if (validateRun first.function_calls toolList).2
      then [((validateRun first.function_calls toolList).1, first.confidence)] else [])
    first.total_time_ms k
  cases hc : consensus (sampleLoop gc toolList (n - 1)
      (if (validateRun first.function_calls toolList).2
        then [((validateRun first.function_calls toolList).1, first.confidence)] else [])
      first.total_time_ms k).1 n with
  | none => simpa [hc] using h
  | some best => simpa [hc] using h

theorem onDevice_shape (gc : ℕ → SampleRun) (msgs : List Msg) (toolList : List ToolSpec)
    (threshold : ℚ) (k : ℕ) :
    ∃ m, 1 ≤ m ∧ m ≤ nSamples
      ∧ (onDevice gc msgs toolList threshold k).2.2 = k + m
      ∧ (onDevice gc msgs toolList threshold k).2.1 = localSpent gc k m := by
  unfold onDevice
  dsimp only
  by_cases hcond : (validateRun (gc k).function_calls toolList).2 = true
      ∧ (gc k).confidence ≥ threshold
  · rw [if_pos hcond]
    exact ⟨1, le_refl 1, by norm_num [nSamples], rfl, by simp [localSpent]⟩
  · rw [if_neg hcond]
    refine ⟨nSamples, by norm_num [nSamples], le_refl _, ?_, ?_⟩
    · rw [(selfConsistent_shape gc toolList (gc k) nSamples (k + 1)).2]
      norm_num [nSamples]
    · rw [(selfConsistent_shape gc toolList (gc k) nSamples (k + 1)).1]
      rw [show (nSamples : ℕ) = 1 + (nSamples - 1) from by norm_num [nSamples]]
      rw [localSpent_add gc k 1 (nSamples - 1)]
      norm_num [nSamples]
      rw [show localSpent gc k 1 = (gc k).total_time_ms from by simp [localSpent]]

theorem resolveParts_shape (gc : ℕ → SampleRun)
    (step : String → ℕ → Option (List Call) × ℚ × ℕ)
    (hstep : ∀ p k, ∃ m, (step p k).2.2 = k + m ∧ (step p k).2.1 = localSpent gc k m) :
    ∀ parts acc total k, ∃ M, (resolveParts step parts acc total k).2.2 = k + M
      ∧ (resolveParts step parts acc total k).2.1 = total + localSpent gc k M := by
  intro parts
  induction parts with
  | nil => intro acc total k; exact ⟨0, rfl, by simp [resolveParts, localSpent]⟩
  | cons p ps ih =>
    intro acc total k
    obtain ⟨m, hk, ht⟩ := hstep p k
    simp only [resolveParts]
    cases hr : (step p k).1 with
    | none =>
      refine ⟨m, by simp [hk], ?_⟩
      simp [ht]
    | some cs =>
      obtain ⟨M, hk2, ht2⟩ := ih (acc ++ cs) (total + (step p k).2.1) (step p k).2.2
      refine ⟨m + M, ?_, ?_⟩
      · rw [hk2, hk]; omega
      · rw [ht2, ht, hk, localSpent_add gc k m M]; ring

theorem resolveFuel_shape (gc : ℕ → SampleRun) (toolList : List ToolSpec)
    (nonUser : List Msg) (threshold : ℚ) :
    ∀ fuel content k, ∃ m,
      (resolveFuel gc toolList nonUser threshold fuel content k).2.2 = k + m
      ∧ (resolveFuel gc toolList nonUser threshold fuel content k).2.1
        = localSpent gc k m := by
  intro fuel
  induction fuel with
  | zero =>
    intro content k
    obtain ⟨m, _, _, hk, ht⟩ := onDevice_shape gc (nonUser ++ [userMsg content]) toolList threshold k
    refine ⟨m, ?_, ?_⟩ <;>
      · unfold resolveFuel
        cases ho : (onDevice gc (nonUser ++ [userMsg content]) toolList threshold k).1 <;>
          simp [ho, hk, ht]
  | succ f ih =>
    intro content k
    obtain ⟨m, _, _, hk, ht⟩ := onDevice_shape gc (nonUser ++ [userMsg content]) toolList threshold k
    unfold resolveFuel
    cases ho : (onDevice gc (nonUser ++ [userMsg content]) toolList threshold k).1 with
    | some r => exact ⟨m, by simp [ho, hk], by simp [ho, ht]⟩
    | none =>
      by_cases hparts : 1 < (decompose content).length
      · obtain ⟨M, hk2, ht2⟩ := resolveParts_shape gc
          (fun p k' => resolveFuel gc toolList nonUser threshold f p k')
          (fun p k' => ih p k')
          (decompose content) []
          (onDevice gc (nonUser ++ [userMsg content]) toolList threshold k).2.1
          (onDevice gc (nonUser ++ [userMsg content]) toolList threshold k).2.2
        refine ⟨m + M, ?_, ?_⟩
        · simp only [ho, if_pos hparts]
          rw [hk2, hk]
          omega
        · simp only [ho, if_pos hparts]
          rw [ht2, ht, hk, localSpent_add gc k m M]
      · exact ⟨m, by simp [ho, hparts, hk], by simp [ho, hparts, ht]⟩

/-- C4: when the first local sample validates and its confidence reaches the
threshold, the Resolver returns that sample's corrected calls after exactly
one underlying local-inference call (the next stream index is `k + 1`),
reporting only that one call's latency. -/
theorem resolver_fast_path (gc : ℕ → SampleRun) (msgs : List Msg)
    (toolList : List ToolSpec) (threshold : ℚ) (k : ℕ)
    (hvalid : (validateRun (gc k).function_calls toolList).2 = true)
    (hconf : threshold ≤ (gc k).confidence) :
    onDevice gc msgs toolList threshold k
      = (some ⟨(validateRun (gc k).function_calls toolList).1, (gc k).confidence,
          (gc k).total_time_ms⟩, (gc k).total_time_ms, k + 1) := by
  unfold onDevice
  dsimp only
  rw [if_pos ⟨hvalid, hconf⟩]

/-- Witness for `resolver_fast_path` at a concrete input. -/
theorem resolver_fast_path_witness :
    (validateRun [⟨"t", []⟩] [⟨"t", [], []⟩]).2 = true
    ∧ onDevice (fun _ => ⟨[⟨"t", []⟩], 1, 5⟩) [userMsg "hi"] [⟨"t", [], []⟩] 1 0
      = (some ⟨[⟨"t", []⟩], 1, 5⟩, 5, 1) := by
  refine ⟨rfl, ?_⟩
  rw [resolver_fast_path (fun _ => ⟨[⟨"t", []⟩], 1, 5⟩) [userMsg "hi"] [⟨"t", [], []⟩] 1 0
    rfl (le_refl 1)]
  rfl

/-- The per-part resolution trace of the sequential loop: `L` lists, in
original clause order, the calls each part resolved to, with the stream index
threaded from each part to the next. -/
inductive StepChain (step : String → ℕ → Option (List Call) × ℚ × ℕ) :
    List String → ℕ → List (List Call) → ℕ → Prop
  | nil (k : ℕ) : StepChain step [] k [] k
  | cons (p : String) (ps : List String) (k : ℕ) (cs : List Call)
      (L : List (List Call)) (k' : ℕ) :
      (step p k).1 = some cs → StepChain step ps (step p k).2.2 L k' →
      StepChain step (p :: ps) k (cs :: L) k'

theorem stepChain_length {step : String → ℕ → Option (List Call) × ℚ × ℕ}
    {parts : List String} {k : ℕ} {L : List (List Call)} {k' : ℕ}
    (h : StepChain step parts k L k') : L.length = parts.length := by
  induction h with
  | nil => rfl
  | cons p ps k cs L k' hstep hrest ih => simp [ih]

theorem resolveParts_chain (step : String → ℕ → Option (List Call) × ℚ × ℕ) :
    ∀ parts acc total k allCalls,
    (resolveParts step parts acc total k).1 = some allCalls →
    ∃ L, allCalls = acc ++ L.flatten
      ∧ StepChain step parts k L (resolveParts step parts acc total k).2.2 := by
  intro parts
  induction parts with
  | nil =>
    intro acc total k allCalls h
    simp only [resolveParts, Option.some.injEq] at h
    exact ⟨[], by simp [h], StepChain.nil k⟩
  | cons p ps ih =>
    intro acc total k allCalls h
    simp only [resolveParts] at h ⊢
    cases hr : (step p k).1 with
    | none => rw [hr] at h; exact nomatch h
    | some cs =>
      rw [hr] at h
      obtain ⟨L, hall, hchain⟩ := ih (acc ++ cs) (total + (step p k).2.1) (step p k).2.2 allCalls h
      refine ⟨cs :: L, by simp [hall], ?_⟩
      exact StepChain.cons p ps k cs L _ hr hchain

/-- C6: when whole-message resolution fails but every decomposed clause
resolves on-device, the orchestrator returns source `"on-device"`, the
function calls are the concatenation of each clause's calls in original
clause order (the trace `L`), the total latency is the sum of every
underlying local attempt across all parts and depths (`localSpent gc 0 kF`
over all `kF` local calls issued), and the remote collaborator is never
called. -/
theorem hybrid_decompose_merge (gc : ℕ → SampleRun) (gcl : List Msg → CloudRun)
    (messages : List Msg) (tools : List ToolSpec) (th : ℚ) (u : Msg)
    (allCalls : List Call)
    (hfail : (onDevice gc messages tools th 0).1 = Option.none)
    (hu : (messages.filter (fun m => m.role = "user")).getLast? = some u)
    (hparts : 1 < (decompose u.content).length)
    (hok : (resolveParts (fun p k' => resolveFuel gc tools
        (messages.filter (fun m => ¬ m.role = "user")) th 2 p k')
        (decompose u.content) [] (onDevice gc messages tools th 0).2.1
        (onDevice gc messages tools th 0).2.2).1 = some allCalls) :
    ∃ (kF : ℕ) (L : List (List Call)),
      generateHybrid gc gcl messages tools th
        = ({ function_calls := allCalls, total_time_ms := localSpent gc 0 kF,
             source := "on-device", confidence := Option.none }, kF, [])
      ∧ allCalls = L.flatten
      ∧ L.length = (decompose u.content).length
      ∧ StepChain (fun p k' => resolveFuel gc tools
          (messages.filter (fun m => ¬ m.role = "user")) th 2 p k')
          (decompose u.content) (onDevice gc messages tools th 0).2.2 L kF := by
  obtain ⟨m, _, _, hk1, ht1⟩ := onDevice_shape gc messages tools th 0
  obtain ⟨M, hk2, ht2⟩ := resolveParts_shape gc
    (fun p k' => resolveFuel gc tools
      (messages.filter (fun m => ¬ m.role = "user")) th 2 p k')
    (fun p k' => resolveFuel_shape gc tools
      (messages.filter (fun m => ¬ m.role = "user")) th 2 p k')
    (decompose u.content) [] (onDevice gc messages tools th 0).2.1
    (onDevice gc messages tools th 0).2.2
  obtain ⟨L, hall, hchain⟩ := resolveParts_chain _ (decompose u.content) []
    (onDevice gc messages tools th 0).2.1 (onDevice gc messages tools th 0).2.2
    allCalls hok
  refine ⟨(resolveParts (fun p k' => resolveFuel gc tools
      (messages.filter (fun m => ¬ m.role = "user")) th 2 p k')
      (decompose u.content) [] (onDevice gc messages tools th 0).2.1
      (onDevice gc messages tools th 0).2.2).2.2, L, ?_, by simpa using hall,
    stepChain_length hchain, hchain⟩
  have htime : (resolveParts (fun p k' => resolveFuel gc tools
      (messages.filter (fun m => ¬ m.role = "user")) th 2 p k')
      (decompose u.content) [] (onDevice gc messages tools th 0).2.1
      (onDevice gc messages tools th 0).2.2).2.1
      = localSpent gc 0 ((resolveParts (fun p k' => resolveFuel gc tools
        (messages.filter (fun m => ¬ m.role = "user")) th 2 p k')
        (decompose u.content) [] (onDevice gc messages tools th 0).2.1
        (onDevice gc messages tools th 0).2.2).2.2) := by
    rw [hk2, ht2, ht1, hk1, ← localSpent_add gc 0 m M]
    congr 1
    omega
  unfold generateHybrid
  dsimp only
  simp only [hfail, hu, if_pos hparts, hok, htime]

/-- C1: when some decomposed part fails to resolve on-device (after its own
nested decomposition attempts), the orchestrator discards all partial
on-device call lists, issues exactly one remote-fallback call, and that call
receives the original, undecomposed `messages` (the cloud log is exactly
`[messages]`); the returned result carries the fallback's calls unchanged,
source `"cloud (fallback)"`, and total latency equal to the fallback's own
latency plus the sum of all `kF` local attempts' latencies. -/
theorem hybrid_cloud_fallback (gc : ℕ → SampleRun) (gcl : List Msg → CloudRun)
    (messages : List Msg) (tools : List ToolSpec) (th : ℚ) (u : Msg)
    (hfail : (onDevice gc messages tools th 0).1 = Option.none)
    (hu : (messages.filter (fun m => m.role = "user")).getLast? = some u)
    (hparts : 1 < (decompose u.content).length)
    (hpartfail : (resolveParts (fun p k' => resolveFuel gc tools
        (messages.filter (fun m => ¬ m.role = "user")) th 2 p k')
        (decompose u.content) [] (onDevice gc messages tools th 0).2.1
        (onDevice gc messages tools th 0).2.2).1 = Option.none) :
    ∃ kF : ℕ,
      generateHybrid gc gcl messages tools th
        = ({ function_calls := (gcl messages).function_calls,
             total_time_ms := (gcl messages).total_time_ms + localSpent gc 0 kF,
             source := "cloud (fallback)", confidence := Option.none },
           kF, [messages]) := by
  obtain ⟨m, _, _, hk1, ht1⟩ := onDevice_shape gc messages tools th 0
  obtain ⟨M, hk2, ht2⟩ := resolveParts_shape gc
    (fun p k' => resolveFuel gc tools
      (messages.filter (fun m => ¬ m.role = "user")) th 2 p k')
    (fun p k' => resolveFuel_shape gc tools
      (messages.filter (fun m => ¬ m.role = "user")) th 2 p k')
    (decompose u.content) [] (onDevice gc messages tools th 0).2.1
    (onDevice gc messages tools th 0).2.2
  refine ⟨(resolveParts (fun p k' => resolveFuel gc tools
      (messages.filter (fun m => ¬ m.role = "user")) th 2 p k')
      (decompose u.content) [] (onDevice gc messages tools th 0).2.1
      (onDevice gc messages tools th 0).2.2).2.2, ?_⟩
  have htime : (resolveParts (fun p k' => resolveFuel gc tools
      (messages.filter (fun m => ¬ m.role = "user")) th 2 p k')
      (decompose u.content) [] (onDevice gc messages tools th 0).2.1
      (onDevice gc messages tools th 0).2.2).2.1
      = localSpent gc 0 ((resolveParts (fun p k' => resolveFuel gc tools
        (messages.filter (fun m => ¬ m.role = "user")) th 2 p k')
        (decompose u.content) [] (onDevice gc messages tools th 0).2.1
        (onDevice gc messages tools th 0).2.2).2.2) := by
    rw [hk2, ht2, ht1, hk1, ← localSpent_add gc 0 m M]
    congr 1
    omega
  unfold generateHybrid
  dsimp only
  simp only [hfail, hu, if_pos hparts, hpartfail, htime]

theorem foldBest_spec (pool : List (List Call × ℚ)) :
    ∀ (ks : List FpKey) (b : FpKey × ℕ), b.2 = countFp pool b.1 →
    ∃ c, ks.foldl (fun best k =>
        match best with
        | Option.none => some (k, countFp pool k)
        | some bb => if countFp pool k > bb.2 then some (k, countFp pool k) else some bb)
      (some b) = some c
      ∧ c.2 = countFp pool c.1 ∧ (c = b ∨ c.1 ∈ ks) ∧ b.2 ≤ c.2
      ∧ ∀ k ∈ ks, countFp pool k ≤ c.2 := by
  intro ks
  induction ks with
  | nil =>
    intro b hb
    exact ⟨b, rfl, hb, Or.inl rfl, le_refl _, by simp⟩
  | cons k0 ks ih =>
    intro b hb
    by_cases hgt : countFp pool k0 > b.2
    · obtain ⟨c, hfold, hc, hmem, hle, hmax⟩ := ih (k0, countFp pool k0) rfl
      refine ⟨c, by simpa [hgt] using hfold, hc, ?_, ?_, ?_⟩
      · rcases hmem with h | h
        · exact Or.inr (by simp [h])
        · exact Or.inr (List.mem_cons_of_mem _ h)
      · exact le_trans (le_of_lt hgt) hle
      · intro k hk
        rcases List.mem_cons.mp hk with rfl | hk'
        · exact hle
        · exact hmax k hk'
    · obtain ⟨c, hfold, hc, hmem, hle, hmax⟩ := ih b hb
      refine ⟨c, by simpa [hgt] using hfold, hc, ?_, hle, ?_⟩
      · rcases hmem with h | h
        · exact Or.inl h
        · exact Or.inr (List.mem_cons_of_mem _ h)
      · intro k hk
        rcases List.mem_cons.mp hk with rfl | hk'
        · rw [hb] at hgt
          exact le_trans (le_of_not_lt hgt) (hb ▸ hle)
        · exact hmax k hk'

theorem mostCommonFp_spec (pool : List (List Call × ℚ)) (hne : pool ≠ []) :
    ∃ c, mostCommonFp pool = some c ∧ c.2 = countFp pool c.1
      ∧ c.1 ∈ pool.map (fun r => fingerprint r.1)
      ∧ ∀ k ∈ pool.map (fun r => fingerprint r.1), countFp pool k ≤ c.2 := by
  obtain ⟨r, rs, rfl⟩ := List.exists_cons_of_ne_nil hne
  obtain ⟨c, hfold, hc, hmem, hle, hmax⟩ := foldBest_spec (r :: rs)
    (rs.map (fun x => fingerprint x.1))
    (fingerprint r.1, countFp (r :: rs) (fingerprint r.1)) rfl
  refine ⟨c, ?_, hc, ?_, ?_⟩
  · unfold mostCommonFp
    simpa using hfold
  · rcases hmem with h | h
    · simp [h]
    · simp only [List.map_cons, List.mem_cons]
      exact Or.inr h
  · intro k hk
    simp only [List.map_cons, List.mem_cons] at hk
    rcases hk with rfl | hk'
    · exact hle
    · exact hmax k hk'

theorem foldMax_spec : ∀ (rs : List (List Call × ℚ)) (b : List Call × ℚ),
    ∃ c, rs.foldl (fun best x => if x.2 > best.2 then x else best) b = c
      ∧ (c = b ∨ c ∈ rs) ∧ b.2 ≤ c.2 ∧ ∀ r ∈ rs, r.2 ≤ c.2 := by
  intro rs
  induction rs with
  | nil => intro b; exact ⟨b, rfl, Or.inl rfl, le_refl _, by simp⟩
  | cons x rs ih =>
    intro b
    by_cases hgt : x.2 > b.2
    · obtain ⟨c, hfold, hmem, hle, hmax⟩ := ih x
      refine ⟨c, by simpa [hgt] using hfold, ?_, le_trans (le_of_lt hgt) hle, ?_⟩
      · rcases hmem with h | h
        · exact Or.inr (by simp [h])
        · exact Or.inr (List.mem_cons_of_mem _ h)
      · intro y hy
        rcases List.mem_cons.mp hy with rfl | hy'
        · exact hle
        · exact hmax y hy'
    · obtain ⟨c, hfold, hmem, hle, hmax⟩ := ih b
      refine ⟨c, by simpa [hgt] using hfold, ?_, hle, ?_⟩
      · rcases hmem with h | h
        · exact Or.inl h
        · exact Or.inr (List.mem_cons_of_mem _ h)
      · intro y hy
        rcases List.mem_cons.mp hy with rfl | hy'
        · exact le_trans (le_of_not_lt hgt) hle
        · exact hmax y hy'

theorem maxByConf_spec (l : List (List Call × ℚ)) (hne : l ≠ []) :
    ∃ best, maxByConf l = some best ∧ best ∈ l ∧ ∀ r ∈ l, r.2 ≤ best.2 := by
  obtain ⟨r, rs, rfl⟩ := List.exists_cons_of_ne_nil hne
  obtain ⟨c, hfold, hmem, hle, hmax⟩ := foldMax_spec rs r
  refine ⟨c, by simpa [maxByConf] using hfold, ?_, ?_⟩
  · rcases hmem with h | h
    · simp [h]
    · exact List.mem_cons_of_mem _ h
  · intro x hx
    rcases List.mem_cons.mp hx with rfl | hx'
    · exact hle
    · exact hmax x hx'

theorem countFp_pos_mem (pool : List (List Call × ℚ)) (key : FpKey)
    (h : 0 < countFp pool key) :
    key ∈ pool.map (fun r => fingerprint r.1) := by
  unfold countFp at h
  rw [List.length_pos] at h
  obtain ⟨r, hr⟩ := List.exists_mem_of_ne_nil _ h
  rw [List.mem_filter] at hr
  rw [List.mem_map]
  exact ⟨r, hr.1, by simpa using hr.2⟩

/-- C3: with the fixed sample budget `n = 3`, the consensus threshold
`max(2, n // 2 + 1)` equals `2` (at least 2 of 3 must agree); consensus
accepts iff some fingerprint is shared by at least 2 valid runs; and an
accepted result is a pooled sample whose fingerprint reaches the threshold
and whose confidence is maximal among the runs sharing that winning
fingerprint.  When no fingerprint reaches the threshold, it returns none. -/
theorem consensus_majority (pool : List (List Call × ℚ)) :
    consensusThreshold nSamples = 2
    ∧ ((consensus pool nSamples).isSome = true ↔ ∃ key, 2 ≤ countFp pool key)
    ∧ (∀ best, consensus pool nSamples = some best →
        best ∈ pool ∧ 2 ≤ countFp pool (fingerprint best.1)
        ∧ ∀ r ∈ pool, fingerprint r.1 = fingerprint best.1 → r.2 ≤ best.2) := by
  have hth : consensusThreshold nSamples = 2 := rfl
  refine ⟨hth, ?_, ?_⟩
  · by_cases hne : pool = []
    · subst hne
      simp only [consensus, mostCommonFp, List.map_nil, List.foldl_nil, Option.isSome_none]
      constructor
      · intro h; exact nomatch h
      · rintro ⟨key, hk⟩
        simp [countFp] at hk
    · obtain ⟨c, hmc, hc, hcmem, hcmax⟩ := mostCommonFp_spec pool hne
      unfold consensus
      rw [hmc, hth]
      dsimp only
      constructor
      · intro hs
        by_cases h2 : 2 ≤ c.2
        · exact ⟨c.1, hc ▸ h2⟩
        · rw [if_neg h2] at hs
          exact nomatch hs
      · rintro ⟨key, hk⟩
        have hkey : key ∈ pool.map (fun r => fingerprint r.1) :=
          countFp_pos_mem pool key (by omega)
        have h2 : 2 ≤ c.2 := le_trans hk (hcmax key hkey)
        rw [if_pos h2]
        have hfne : pool.filter (fun r => fingerprint r.1 = c.1) ≠ [] := by
          intro hemp
          have : countFp pool c.1 = 0 := by simp [countFp, hemp]
          omega
        obtain ⟨best, hbest, _, _⟩ := maxByConf_spec _ hfne
        simp [hbest]
  · intro best hsome
    by_cases hne : pool = []
    · subst hne
      simp [consensus, mostCommonFp] at hsome
    · obtain ⟨c, hmc, hc, hcmem, hcmax⟩ := mostCommonFp_spec pool hne
      unfold consensus at hsome
      rw [hmc, hth] at hsome
      dsimp only at hsome
      by_cases h2 : 2 ≤ c.2
      · rw [if_pos h2] at hsome
        have hfne : pool.filter (fun r => fingerprint r.1 = c.1) ≠ [] := by
          intro hemp
          have : countFp pool c.1 = 0 := by simp [countFp, hemp]
          omega
        obtain ⟨b, hb, hbmem, hbmax⟩ := maxByConf_spec _ hfne
        rw [hb] at hsome
        obtain rfl : b = best := by simpa using hsome
        rw [List.mem_filter] at hbmem
        have hfp : fingerprint b.1 = c.1 := by simpa using hbmem.2
        refine ⟨hbmem.1, ?_, ?_⟩
        · rw [hfp, ← hc]
          exact h2
        · intro r hr hrfp
          exact hbmax r (by rw [List.mem_filter]; exact ⟨hr, by simp [hrfp, hfp]⟩)
      · rw [if_neg h2] at hsome
        exact nomatch hsome

/-- Static bound on the number of local-inference calls a (sub-)resolution
with `fuel` remaining depth can issue: at most `N_SAMPLES` for its own
fast-path/self-consistency attempt, plus (below the depth bound) the bounds
of its decomposed parts. -/
def attemptBound : ℕ → String → ℕ
  | 0, _ => nSamples
  | fuel + 1, content =>
    nSamples + (if 1 < (decompose content).length
      then ((decompose content).map (fun p => attemptBound fuel p)).sum else 0)

/-- Static bound on the local-inference calls of one whole request. -/
def hybridDecompBound (messages : List Msg) : ℕ :=
  match (messages.filter (fun m => m.role = "user")).getLast? with
  | Option.none => 0
  | some u =>
    if 1 < (decompose u.content).length
    then ((decompose u.content).map (fun p => attemptBound 2 p)).sum else 0

theorem onDevice_count_le (gc : ℕ → SampleRun) (msgs : List Msg)
    (toolList : List ToolSpec) (threshold : ℚ) (k : ℕ) :
    (onDevice gc msgs toolList threshold k).2.2 ≤ k + nSamples := by
  obtain ⟨m, _, hm, hk, _⟩ := onDevice_shape gc msgs toolList threshold k
  omega

theorem resolveParts_count_le (step : String → ℕ → Option (List Call) × ℚ × ℕ)
    (B : String → ℕ) (hstep : ∀ p k, (step p k).2.2 ≤ k + B p) :
    ∀ parts acc total k,
      (resolveParts step parts acc total k).2.2 ≤ k + (parts.map B).sum := by
  intro parts
  induction parts with
  | nil => intro acc total k; simp [resolveParts]
  | cons p ps ih =>
    intro acc total k
    simp only [resolveParts, List.map_cons, List.sum_cons]
    cases hr : (step p k).1 with
    | none =>
      dsimp only
      have := hstep p k
      omega
    | some cs =>
      dsimp only
      have h1 := hstep p k
      have h2 := ih (acc ++ cs) (total + (step p k).2.1) (step p k).2.2
      omega

theorem resolveFuel_count_le (gc : ℕ → SampleRun) (toolList : List ToolSpec)
    (nonUser : List Msg) (threshold : ℚ) :
    ∀ fuel content k,
      (resolveFuel gc toolList nonUser threshold fuel content k).2.2
        ≤ k + attemptBound fuel content := by
  intro fuel
  induction fuel with
  | zero =>
    intro content k
    have hod := onDevice_count_le gc (nonUser ++ [userMsg content]) toolList threshold k
    unfold resolveFuel
    cases ho : (onDevice gc (nonUser ++ [userMsg content]) toolList threshold k).1 <;>
      simpa [ho, attemptBound] using hod
  | succ f ih =>
    intro content k
    have hod := onDevice_count_le gc (nonUser ++ [userMsg content]) toolList threshold k
    unfold resolveFuel
    cases ho : (onDevice gc (nonUser ++ [userMsg content]) toolList threshold k).1 with
    | some r =>
      simp only [ho, attemptBound]
      omega
    | none =>
      by_cases hparts : 1 < (decompose content).length
      · simp only [ho, if_pos hparts, attemptBound]
        have hp := resolveParts_count_le
          (fun p k' => resolveFuel gc toolList nonUser threshold f p k')
          (fun p => attemptBound f p) (fun p k' => ih p k')
          (decompose content) []
          (onDevice gc (nonUser ++ [userMsg content]) toolList threshold k).2.1
          (onDevice gc (nonUser ++ [userMsg content]) toolList threshold k).2.2
        omega
      · simp only [ho, if_neg hparts, attemptBound]
        omega

/-- C7: the per-part resolution is depth-bounded and terminates: at the depth
bound (`fuel = 0`, i.e. `depth = max_depth`) a part is resolved by a single
fast-path/self-consistency attempt and is never decomposed further; the
number of local-inference calls of any (sub-)resolution is bounded by the
statically computed `attemptBound`; and a whole top-level request issues at
most `N_SAMPLES + hybridDecompBound messages` local calls, a finite bound,
so the orchestrator always reaches a terminal state. -/
theorem resolve_depth_bounded :
    (∀ (gc : ℕ → SampleRun) (toolList : List ToolSpec) (nonUser : List Msg)
        (th : ℚ) (content : String) (k : ℕ),
      resolveFuel gc toolList nonUser th 0 content k
        = ((onDevice gc (nonUser ++ [userMsg content]) toolList th k).1.map
            DeviceResult.function_calls,
          (onDevice gc (nonUser ++ [userMsg content]) toolList th k).2.1,
          (onDevice gc (nonUser ++ [userMsg content]) toolList th k).2.2))
    ∧ (∀ (gc : ℕ → SampleRun) (toolList : List ToolSpec) (nonUser : List Msg)
        (th : ℚ) (fuel : ℕ) (content : String) (k : ℕ),
        (resolveFuel gc toolList nonUser th fuel content k).2.2
          ≤ k + attemptBound fuel content)
    ∧ (∀ (gc : ℕ → SampleRun) (gcl : List Msg → CloudRun) (messages : List Msg)
        (tools : List ToolSpec) (th : ℚ),
        (generateHybrid gc gcl messages tools th).2.1
          ≤ nSamples + hybridDecompBound messages) := by
  refine ⟨?_, ?_, ?_⟩
  · intro gc toolList nonUser th content k
    unfold resolveFuel
    cases ho : (onDevice gc (nonUser ++ [userMsg content]) toolList th k).1 <;> simp [ho]
  · intro gc toolList nonUser th fuel content k
    exact resolveFuel_count_le gc toolList nonUser th fuel content k
  · intro gc gcl messages tools th
    have hod := onDevice_count_le gc messages tools th 0
    unfold generateHybrid
    dsimp only
    cases ho : (onDevice gc messages tools th 0).1 with
    | some r =>
      dsimp only
      have h3 : (onDevice gc messages tools th 0).2.2 ≤ nSamples := by omega
      exact le_trans h3 (Nat.le_add_right _ _)
    | none =>
      dsimp only
      cases hu : (messages.filter (fun m => m.role = "user")).getLast? with
      | none =>
        simp only [hybridDecompBound, hu]
        omega
      | some u =>
        simp only [hybridDecompBound, hu]
        by_cases hparts : 1 < (decompose u.content).length
        · rw [if_pos hparts, if_pos hparts]
          have hp := resolveParts_count_le
            (fun p k' => resolveFuel gc tools
              (messages.filter (fun m => ¬ m.role = "user")) th 2 p k')
            (fun p => attemptBound 2 p)
            (fun p k' => resolveFuel_count_le gc tools
              (messages.filter (fun m => ¬ m.role = "user")) th 2 p k')
            (decompose u.content) [] (onDevice gc messages tools th 0).2.1
            (onDevice gc messages tools th 0).2.2
          cases hrp : (resolveParts
              (fun p k' => resolveFuel gc tools
                (messages.filter (fun m => ¬ m.role = "user")) th 2 p k')
              (decompose u.content) [] (onDevice gc messages tools th 0).2.1
              (onDevice gc messages tools th 0).2.2).1 with
          | some allCalls =>
            dsimp only
            omega
          | none =>
            dsimp only
            omega
        · rw [if_neg hparts, if_neg hparts]
          dsimp only
          omega

/-- Witness oracle: a local collaborator whose samples never validate. -/
def gcFailW : ℕ → SampleRun := fun _ => ⟨[], 0, 1⟩

/-- Witness oracle: a local collaborator that fails on the whole compound
message (stream positions 0–2) and then resolves each decomposed clause on
its first, high-confidence sample (positions 3 and 4). -/
def gcMixW : ℕ → SampleRun := fun k =>
  if k < 3 then ⟨[], 0, 1⟩
  else if k = 3 then ⟨[⟨"set_alarm", []⟩], 1, 1⟩
  else ⟨[⟨"get_weather", []⟩], 1, 1⟩

/-- Witness oracle: the remote collaborator. -/
def gclW : List Msg → CloudRun := fun _ => ⟨[⟨"c", []⟩], 10⟩

/-- Witness compound request. -/
def compoundW : String := "Set an alarm for 6:00 AM, and check the weather in Paris"

/-- Witness message list. -/
def msgsW : List Msg := [userMsg compoundW]

/-- Witness tool list. -/
def toolsW : List ToolSpec := [⟨"set_alarm", [], []⟩, ⟨"get_weather", [], []⟩]

/-- Witness for `hybrid_cloud_fallback` at a concrete input where every
local sample is invalid. -/
theorem hybrid_cloud_fallback_witness :
    ∃ kF : ℕ,
      generateHybrid gcFailW gclW msgsW toolsW 1
        = ({ function_calls := (gclW msgsW).function_calls,
             total_time_ms := (gclW msgsW).total_time_ms + localSpent gcFailW 0 kF,
             source := "cloud (fallback)", confidence := Option.none },
           kF, [msgsW]) :=
  hybrid_cloud_fallback gcFailW gclW msgsW toolsW 1 (userMsg compoundW)
    (by decide) (by decide) (by decide) (by decide)

/-- Witness for `validate_valid_iff` at a concrete valid batch. -/
theorem validate_valid_iff_witness :
    (validateRun [⟨"t", [("n", Value.int 5)]⟩] [⟨"t", [("n", "integer")], ["n"]⟩]).2
      = true :=
  (validate_valid_iff [⟨"t", [("n", Value.int 5)]⟩]
    [⟨"t", [("n", "integer")], ["n"]⟩]).mpr (by decide)

/-- Witness for `consensus_majority`: 2 of 3 valid runs agree, so consensus
accepts. -/
theorem consensus_majority_witness :
    (consensus [([⟨"a", []⟩], (0 : ℚ)), ([⟨"a", []⟩], 1), ([⟨"b", []⟩], 1)]
      nSamples).isSome = true :=
  (consensus_majority [([⟨"a", []⟩], (0 : ℚ)), ([⟨"a", []⟩], 1), ([⟨"b", []⟩], 1)]).2.1.mpr
    ⟨fingerprint [⟨"a", []⟩], by decide⟩

/-- Witness for `hybrid_decompose_merge` at a concrete input: the compound
request fails whole, both clauses resolve, and the result is their
concatenation in clause order. -/
theorem hybrid_decompose_merge_witness :
    ∃ (kF : ℕ) (L : List (List Call)),
      generateHybrid gcMixW gclW msgsW toolsW 1
        = ({ function_calls := [⟨"set_alarm", []⟩, ⟨"get_weather", []⟩],
             total_time_ms := localSpent gcMixW 0 kF,
             source := "on-device", confidence := Option.none }, kF, [])
      ∧ [⟨"set_alarm", []⟩, ⟨"get_weather", []⟩] = L.flatten
      ∧ L.length = (decompose (userMsg compoundW).content).length
      ∧ StepChain (fun p k' => resolveFuel gcMixW toolsW
          (msgsW.filter (fun m => ¬ m.role = "user")) 1 2 p k')
          (decompose (userMsg compoundW).content)
          (onDevice gcMixW msgsW toolsW 1 0).2.2 L kF :=
  hybrid_decompose_merge gcMixW gclW msgsW toolsW 1 (userMsg compoundW)
    [⟨"set_alarm", []⟩, ⟨"get_weather", []⟩]
    (by decide) (by decide) (by decide) (by decide)
